import Mathlib

/-
Shallow embedding of src/higher-order-functions.go.

The Go element type is `type T int`; the library never relies on machine
overflow itself (arithmetic happens only inside caller-supplied functions),
so T is embedded as Int.

A Go channel carrying a finite run of elements is embedded as a `Chan`:
the ordered list of elements still pending plus the closed flag set by the
producer.  Reading from a channel whose producer never closes it would
block forever, so `from_chan` returns an Option: `none` models an
indefinitely blocked drain, `some` an eventually returning one.  Reading
is destructive, so `from_chan` also returns the post-read channel state.

`pmapT` spawns one goroutine per index, each writing `to[i] = f(from[i])`
into a pre-sized slice (Go zero value 0) and the caller waits on a
WaitGroup barrier.  The nondeterministic scheduling is embedded as an
explicit `order : List Nat`: the sequence in which the workers commit
their writes.  A full run of the real program corresponds to an `order`
that is a permutation of the indices.
-/

abbrev T := Int

/-- Single-producer single-consumer Go channel after the producer has run:
the elements still pending, and whether close has been called. -/
structure Chan where
  pending : List T
  closed : Bool

/-- Embeds to_chan: the producer goroutine sends every element of the
array in order and then closes the channel. -/
def to_chan (s : List T) : Chan :=
  { pending := s, closed := true }

/-- Embeds from_chan: range over the channel until closed, accumulating
in arrival order.  On a never-closed channel the range blocks forever,
embedded as none; otherwise it returns the drained elements and the
spent channel. -/
def from_chan (c : Chan) : Option (List T × Chan) :=
  if c.closed then some (c.pending, { pending := [], closed := true }) else none

/-- Embeds mapT: pre-sized output with to[i] = f(from[i]) written in
index order, which is exactly List.map. -/
def mapT (f : T → T) (s : List T) : List T :=
  s.map f

/-- One pmapT worker landing: worker i writes f(from[i]) at index i of
the result slice. -/
def pmapStep (f : T → T) (xs : List T) (dst : List T) (i : Nat) : List T :=
  dst.set i (f (xs.getD i 0))

/-- Embeds pmapT: result pre-sized to len(from) with the Go zero value,
then the workers commit their disjoint-index writes in scheduling order,
and the WaitGroup barrier returns the slice once all have landed. -/
def pmapT (f : T → T) (xs : List T) (order : List Nat) : List T :=
  order.foldl (pmapStep f xs) (List.replicate xs.length 0)

/-- The body of the mapchanT worker loop: receive until the channel
reports closed, forwarding f of each element in order. -/
def mapchanLoop (f : T → T) : List T → List T
  | [] => []
  | x :: xs => f x :: mapchanLoop f xs

/-- Embeds mapchanT: the stage worker relays the input channel through f
and closes the output exactly when it observes the input closed. -/
def mapchanT (f : T → T) (c : Chan) : Chan :=
  { pending := mapchanLoop f c.pending, closed := c.closed }

/-- Embeds filterT: loop over the input appending the elements where the
predicate holds. -/
def filterT (f : T → Bool) (xs : List T) : List T :=
  xs.foldl (fun dst v => if f v then dst ++ [v] else dst) ([] : List T)

/-- Embeds removeT: loop over the input appending the elements where the
predicate fails. -/
def removeT (f : T → Bool) (xs : List T) : List T :=
  xs.foldl (fun dst n => if !f n then dst ++ [n] else dst) ([] : List T)

/-- Embeds take: walk the input, breaking as soon as the counter is
nonpositive, otherwise appending and decrementing. -/
def take : Int → List T → List T
  | _, [] => []
  | n, v :: rest => if n ≤ 0 then [] else v :: take (n - 1) rest

/-- Embeds drop: walk the input, skipping while the counter is positive,
then appending every remaining element. -/
def drop : Int → List T → List T
  | _, [] => []
  | n, v :: rest => if n > 0 then drop (n - 1) rest else v :: drop n rest

/-- Embeds foldlT: recursive left fold, accumulator first, recursing on
the tail slice. -/
def foldlT (f : T → T → T) : T → List T → T
  | z, [] => z
  | z, x :: xs => foldlT f (f z x) xs

/-- Embeds foldrT: recursive right fold, element first, recursing on the
tail slice. -/
def foldrT (f : T → T → T) (z : T) : List T → T
  | [] => z
  | x :: xs => f x (foldrT f z xs)

/-- foldlT instrumented with a stack budget: each recursive call on a
nonempty slice spends one frame; none means the budget was exhausted. -/
def foldlFuel (f : T → T → T) : T → List T → Nat → Option T
  | z, [], _ => some z
  | _, _ :: _, 0 => none
  | z, x :: xs, fuel + 1 => foldlFuel f (f z x) xs fuel

/-- foldrT instrumented with a stack budget: each recursive call on a
nonempty slice spends one frame; none means the budget was exhausted. -/
def foldrFuel (f : T → T → T) (z : T) : List T → Nat → Option T
  | [], _ => some z
  | _ :: _, 0 => none
  | x :: xs, fuel + 1 => Option.map (fun r => f x r) (foldrFuel f z xs fuel)

/-! Helper lemmas shared by several claims. -/

theorem mapchanLoop_eq_map (f : T → T) (l : List T) :
    mapchanLoop f l = l.map f := by
  induction l with
  | nil => rfl
  | cons x xs ih => simp [mapchanLoop, ih]

theorem length_pmapRun (f : T → T) (xs : List T) :
    ∀ (order : List Nat) (acc : List T),
      (order.foldl (pmapStep f xs) acc).length = acc.length := by
  intro order
  induction order with
  | nil => intro acc; rfl
  | cons i rest ih =>
      intro acc
      simp only [List.foldl_cons]
      rw [ih]
      simp [pmapStep]

theorem getD_set_self (l : List T) :
    ∀ (i : Nat) (v : T), i < l.length → (l.set i v).getD i 0 = v := by
  induction l with
  | nil => intro i v h; simp at h
  | cons x xs ih =>
      intro i v h
      cases i with
      | zero => rfl
      | succ j =>
          simp only [List.set, List.getD, List.getElem?_cons_succ]
          exact ih j v (Nat.lt_of_succ_lt_succ h)

theorem getD_set_ne (l : List T) :
    ∀ (i j : Nat) (v : T), i ≠ j → (l.set i v).getD j 0 = l.getD j 0 := by
  induction l with
  | nil => intro i j v _; rfl
  | cons x xs ih =>
      intro i j v hij
      cases i with
      | zero =>
          cases j with
          | zero => exact absurd rfl hij
          | succ k => rfl
      | succ i2 =>
          cases j with
          | zero => rfl
          | succ k =>
              simp only [List.set, List.getD, List.getElem?_cons_succ]
              exact ih i2 k v (fun h => hij (by rw [h]))

theorem pmapRun_getD (f : T → T) (xs : List T) :
    ∀ (order : List Nat) (acc : List T) (j : Nat), acc.length = xs.length →
      (order.foldl (pmapStep f xs) acc).getD j 0 =
        if j ∈ order ∧ j < xs.length then f (xs.getD j 0) else acc.getD j 0 := by
  intro order
  induction order with
  | nil => intro acc j _; simp
  | cons i rest ih =>
      intro acc j hacc
      simp only [List.foldl_cons]
      rw [ih (pmapStep f xs acc i) j (by simp [pmapStep, hacc])]
      by_cases hjr : j ∈ rest
      · by_cases hjl : j < xs.length
        · simp [hjr, hjl, List.mem_cons]
        · have hout1 : (pmapStep f xs acc i).getD j 0 = 0 :=
            List.getD_eq_default _ _ (by simp only [pmapStep, List.length_set]; omega)
          have hout2 : acc.getD j 0 = 0 :=
            List.getD_eq_default _ _ (by omega)
          rw [if_neg (fun h => hjl h.2), if_neg (fun h => hjl h.2), hout1, hout2]
      · by_cases hij : i = j
        · subst hij
          by_cases hil : i < xs.length
          · simp only [hjr, List.mem_cons, or_false, false_and, if_false, and_true, hil,
              true_or, if_true]
            exact getD_set_self acc i (f (xs.getD i 0)) (by rw [hacc]; exact hil)
          · simp only [pmapStep]
            rw [List.set_eq_of_length_le (by omega)]
            simp [hjr, hil]
        · have hji : j ≠ i := fun h => hij h.symm
          simp only [pmapStep]
          rw [getD_set_ne acc i j (f (xs.getD i 0)) hij]
          simp [List.mem_cons, hjr, hji]

theorem ext_getD : ∀ (l1 l2 : List T), l1.length = l2.length →
    (∀ j, j < l1.length → l1.getD j 0 = l2.getD j 0) → l1 = l2 := by
  intro l1
  induction l1 with
  | nil =>
      intro l2 hl _
      cases l2 with
      | nil => rfl
      | cons y ys => simp at hl
  | cons x xs ih =>
      intro l2 hl hp
      cases l2 with
      | nil => simp at hl
      | cons y ys =>
          have h0 : x = y := by
            have := hp 0 (by simp)
            simpa [List.getD_cons_zero] using this
          have hrest : xs = ys := by
            refine ih ys (by simpa using hl) ?_
            intro j hj
            have := hp (j + 1) (by simpa using Nat.succ_lt_succ hj)
            simpa [List.getD_cons_succ] using this
          rw [h0, hrest]

theorem getD_map_lt (f : T → T) (l : List T) :
    ∀ j, j < l.length → (l.map f).getD j 0 = f (l.getD j 0) := by
  induction l with
  | nil => intro j h; simp at h
  | cons x xs ih =>
      intro j h
      cases j with
      | zero => rfl
      | succ k =>
          simp only [List.map, List.getD, List.getElem?_cons_succ]
          exact ih k (Nat.lt_of_succ_lt_succ h)

theorem filterT_foldl (p : T → Bool) :
    ∀ (xs acc : List T),
      xs.foldl (fun dst v => if p v then dst ++ [v] else dst) acc = acc ++ xs.filter p := by
  intro xs
  induction xs with
  | nil => intro acc; simp
  | cons x xs ih =>
      intro acc
      cases hpx : p x <;>
        simp [List.foldl_cons, hpx, ih, List.filter_cons]

theorem filterT_eq_filter (p : T → Bool) (xs : List T) :
    filterT p xs = xs.filter p := by
  simpa using filterT_foldl p xs []

theorem removeT_foldl (p : T → Bool) :
    ∀ (xs acc : List T),
      xs.foldl (fun dst n => if !p n then dst ++ [n] else dst) acc =
        acc ++ xs.filter (fun v => !p v) := by
  intro xs
  induction xs with
  | nil => intro acc; simp
  | cons x xs ih =>
      intro acc
      simp only [List.foldl_cons]
      rw [ih]
      cases hpx : p x <;> simp [List.filter_cons, hpx]

theorem removeT_eq_filter (p : T → Bool) (xs : List T) :
    removeT p xs = xs.filter (fun v => !p v) := by
  have h := removeT_foldl p xs []
  rw [List.nil_append] at h
  exact h

theorem length_filter_add_length_filter_not (p : T → Bool) :
    ∀ xs : List T,
      (xs.filter p).length + (xs.filter (fun v => !p v)).length = xs.length := by
  intro xs
  induction xs with
  | nil => rfl
  | cons x xs ih =>
      cases hpx : p x <;> simp [List.filter_cons, hpx] <;> omega

theorem take_nonpos (n : Int) (s : List T) (h : n ≤ 0) : take n s = [] := by
  cases s with
  | nil => rfl
  | cons v rest => simp [take, h]

theorem drop_nonpos : ∀ (s : List T) (n : Int), n ≤ 0 → drop n s = s := by
  intro s
  induction s with
  | nil => intro n _; rfl
  | cons v rest ih =>
      intro n h
      have : ¬n > 0 := by omega
      simp [drop, this, ih n h]

theorem drop_ge_length : ∀ (s : List T) (n : Int), (s.length : Int) ≤ n → drop n s = [] := by
  intro s
  induction s with
  | nil => intro n _; rfl
  | cons v rest ih =>
      intro n h
      have hn : n > 0 := by
        simp only [List.length_cons] at h
        omega
      have hrest : (rest.length : Int) ≤ n - 1 := by
        simp only [List.length_cons] at h
        omega
      simp [drop, hn, ih (n - 1) hrest]

theorem take_eq_list_take : ∀ (s : List T) (n : Int), take n s = s.take n.toNat := by
  intro s
  induction s with
  | nil => intro n; simp [take]
  | cons v rest ih =>
      intro n
      by_cases h : n ≤ 0
      · have : n.toNat = 0 := by omega
        simp [take, h, this]
      · have hm : n.toNat = (n - 1).toNat + 1 := by omega
        simp only [take, h, if_false, hm, List.take_succ_cons]
        rw [ih (n - 1)]

theorem take_drop_id : ∀ (s : List T) (n : Int), 0 ≤ n → n ≤ (s.length : Int) →
    take n s ++ drop n s = s := by
  intro s
  induction s with
  | nil => intro n _ _; rfl
  | cons v rest ih =>
      intro n h0 h1
      by_cases h : n ≤ 0
      · have hz : n = 0 := le_antisymm h h0
        subst hz
        have : ¬(0 : Int) > 0 := by omega
        simp [take, drop, this, drop_nonpos rest 0 le_rfl]
      · have hgt : n > 0 := by omega
        have hb1 : 0 ≤ n - 1 := by omega
        have hb2 : n - 1 ≤ (rest.length : Int) := by
          simp only [List.length_cons] at h1
          push_cast at h1 ⊢
          omega
        simp [take, drop, h, hgt, List.cons_append, ih (n - 1) hb1 hb2]

theorem foldlT_eq_foldl (f : T → T → T) : ∀ (s : List T) (z : T),
    foldlT f z s = s.foldl f z := by
  intro s
  induction s with
  | nil => intro z; rfl
  | cons x xs ih => intro z; simp [foldlT, List.foldl_cons, ih]

theorem foldrT_eq_foldr (f : T → T → T) (z : T) : ∀ s : List T,
    foldrT f z s = s.foldr f z := by
  intro s
  induction s with
  | nil => rfl
  | cons x xs ih => simp [foldrT, List.foldr_cons, ih]

theorem foldlFuel_enough (f : T → T → T) : ∀ (s : List T) (z : T) (fuel : Nat),
    s.length ≤ fuel → foldlFuel f z s fuel = some (foldlT f z s) := by
  intro s
  induction s with
  | nil => intro z fuel _; rfl
  | cons x xs ih =>
      intro z fuel h
      cases fuel with
      | zero => simp at h
      | succ m =>
          simp only [foldlFuel, foldlT]
          exact ih (f z x) m (by simpa using h)

theorem foldlFuel_exhaust (f : T → T → T) : ∀ (s : List T) (z : T) (fuel : Nat),
    fuel < s.length → foldlFuel f z s fuel = none := by
  intro s
  induction s with
  | nil => intro z fuel h; simp at h
  | cons x xs ih =>
      intro z fuel h
      cases fuel with
      | zero => rfl
      | succ m =>
          simp only [foldlFuel]
          exact ih (f z x) m (by simpa using h)

theorem foldrFuel_enough (f : T → T → T) (z : T) : ∀ (s : List T) (fuel : Nat),
    s.length ≤ fuel → foldrFuel f z s fuel = some (foldrT f z s) := by
  intro s
  induction s with
  | nil => intro fuel _; rfl
  | cons x xs ih =>
      intro fuel h
      cases fuel with
      | zero => simp at h
      | succ m =>
          simp only [foldrFuel, foldrT]
          rw [ih m (by simpa using h)]
          rfl

theorem foldrFuel_exhaust (f : T → T → T) (z : T) : ∀ (s : List T) (fuel : Nat),
    fuel < s.length → foldrFuel f z s fuel = none := by
  intro s
  induction s with
  | nil => intro fuel h; simp at h
  | cons x xs ih =>
      intro fuel h
      cases fuel with
      | zero => rfl
      | succ m =>
          simp only [foldrFuel]
          rw [ih m (by simpa using h)]
          rfl

/-! The claims. -/

/-- C1: for every finite sequence s and function f, the sequential map and
the streaming pipeline agree: mapT f s equals the sequence drained by
from_chan from mapchanT f applied to to_chan s, element for element,
preserving order and count (the drain returns and leaves a spent channel). -/
theorem claim_C1_map_stream_equiv (f : T → T) (s : List T) :
    from_chan (mapchanT f (to_chan s)) =
      some (mapT f s, { pending := [], closed := true }) := by
  simp [from_chan, mapchanT, to_chan, mapT, mapchanLoop_eq_map]

/-- C2: pmapT f s, run under any scheduling order in which every worker
index commits exactly the writes of a permutation of 0..len(s)-1, returns
a sequence index-wise identical to mapT f s. -/
theorem claim_C2_pmap_eq_map (f : T → T) (s : List T) (order : List Nat)
    (h : order.Perm (List.range s.length)) :
    pmapT f s order = mapT f s := by
  have hlen : (pmapT f s order).length = s.length := by
    rw [pmapT, length_pmapRun, List.length_replicate]
  apply ext_getD
  · rw [hlen, mapT, List.length_map]
  · intro j hj
    rw [hlen] at hj
    rw [pmapT, pmapRun_getD f s order _ j (by simp)]
    have hmem : j ∈ order := h.mem_iff.mpr (List.mem_range.mpr hj)
    rw [if_pos ⟨hmem, hj⟩, mapT, getD_map_lt f s j hj]

/-- Witness for C2 at a concrete permutation of worker completions. -/
theorem claim_C2_witness :
    ([2, 0, 1] : List Nat).Perm (List.range ([3, 4, 5] : List T).length) ∧
      pmapT (fun x => x * x) [3, 4, 5] [2, 0, 1] = mapT (fun x => x * x) [3, 4, 5] :=
  ⟨by decide, claim_C2_pmap_eq_map (fun x => x * x) [3, 4, 5] [2, 0, 1] (by decide)⟩

/-- C3: foldlT is the strictly left-to-right left fold with the
accumulator first, returns z on the empty sequence, and in particular
foldlT sub 0 [1,2,3,4,5] = -15. -/
theorem claim_C3_foldl (f : T → T → T) (z : T) (s : List T) :
    foldlT f z s = s.foldl f z ∧ foldlT f z [] = z ∧
      foldlT (fun a b => a - b) 0 [1, 2, 3, 4, 5] = -15 :=
  ⟨foldlT_eq_foldl f s z, rfl, by decide⟩

/-- C4: foldrT is the right fold with the element first, returns z on the
empty sequence, and in particular foldrT sub 0 [1,2,3,4,5] = 3. -/
theorem claim_C4_foldr (f : T → T → T) (z : T) (s : List T) :
    foldrT f z s = s.foldr f z ∧ foldrT f z [] = z ∧
      foldrT (fun a b => a - b) 0 [1, 2, 3, 4, 5] = 3 :=
  ⟨foldrT_eq_foldr f z s, rfl, by decide⟩

/-- C5: filterT and removeT partition the input: removeT p s is
filterT (not p) s, lengths add up to len s, both keep the original
relative order (sublists of s), and a value lands in filterT exactly when
the predicate holds and in removeT exactly when it fails. -/
theorem claim_C5_partition (p : T → Bool) (s : List T) :
    removeT p s = filterT (fun v => !p v) s ∧
    (filterT p s).length + (removeT p s).length = s.length ∧
    (filterT p s).Sublist s ∧ (removeT p s).Sublist s ∧
    (∀ v : T, v ∈ filterT p s ↔ v ∈ s ∧ p v = true) ∧
    (∀ v : T, v ∈ removeT p s ↔ v ∈ s ∧ p v = false) := by
  refine ⟨?_, ?_, ?_, ?_, ?_, ?_⟩
  · rw [removeT_eq_filter, filterT_eq_filter]
  · rw [filterT_eq_filter, removeT_eq_filter]
    exact length_filter_add_length_filter_not p s
  · rw [filterT_eq_filter]
    exact List.filter_sublist s
  · rw [removeT_eq_filter]
    exact List.filter_sublist s
  · intro v
    rw [filterT_eq_filter]
    simp [List.mem_filter]
  · intro v
    rw [removeT_eq_filter]
    simp [List.mem_filter]

/-- C6: for 0 <= n <= len s, take n s concatenated with drop n s
reconstructs s. -/
theorem claim_C6_take_append_drop (n : Int) (s : List T)
    (h0 : 0 ≤ n) (h1 : n ≤ (s.length : Int)) :
    take n s ++ drop n s = s :=
  take_drop_id s n h0 h1

/-- Witness for C6 at n = 2 on a three element sequence. -/
theorem claim_C6_witness :
    (0 : Int) ≤ 2 ∧ (2 : Int) ≤ (([5, 6, 7] : List T).length : Int) ∧
      take 2 [5, 6, 7] ++ drop 2 [5, 6, 7] = [5, 6, 7] :=
  ⟨by decide, by decide, claim_C6_take_append_drop 2 [5, 6, 7] (by decide) (by decide)⟩

/-- C7: take n s is the first min(n, len s) elements in order, empty for
nonpositive n; drop n s is the whole sequence for nonpositive n and empty
once n reaches len s. -/
theorem claim_C7_take_drop_edges (n : Int) (s : List T) :
    take n s = s.take n.toNat ∧
    (n ≤ 0 → take n s = []) ∧
    (n ≤ 0 → drop n s = s) ∧
    ((s.length : Int) ≤ n → drop n s = []) :=
  ⟨take_eq_list_take s n, fun h => take_nonpos n s h, fun h => drop_nonpos s n h,
    fun h => drop_ge_length s n h⟩

/-- Witness for C7 at negative and oversized counts. -/
theorem claim_C7_witness :
    take (-1) [4, 5] = ([] : List T) ∧ drop (-1) [4, 5] = [4, 5] ∧
      drop 5 [4, 5] = ([] : List T) :=
  ⟨(claim_C7_take_drop_edges (-1) [4, 5]).2.1 (by decide),
   (claim_C7_take_drop_edges (-1) [4, 5]).2.2.1 (by decide),
   (claim_C7_take_drop_edges 5 [4, 5]).2.2.2 (by decide)⟩

/-- C8: draining the stream produced from a sequence returns exactly that
sequence in order, leaving a spent channel. -/
theorem claim_C8_roundtrip (s : List T) :
    from_chan (to_chan s) = some (s, { pending := [], closed := true }) :=
  rfl

/-- C9: once the producer has closed the stream and it has been fully
drained, a second from_chan read attempt returns an empty sequence and
does return (it is not the blocked none case). -/
theorem claim_C9_second_read (s out1 : List T) (c1 : Chan)
    (h : from_chan (to_chan s) = some (out1, c1)) :
    from_chan c1 = some ([], { pending := [], closed := true }) := by
  have hh : from_chan (to_chan s) = some (s, { pending := [], closed := true }) := rfl
  rw [hh] at h
  obtain ⟨h1, h2⟩ := Prod.mk.inj (Option.some.inj h)
  rw [← h2]
  rfl

/-- Witness for C9 on a concrete drained stream. -/
theorem claim_C9_witness :
    from_chan { pending := [], closed := true } =
      some ([], { pending := [], closed := true }) :=
  claim_C9_second_read [7, 8] [7, 8] { pending := [], closed := true } rfl

/-- C10: both folds terminate on every finite sequence with recursion
depth exactly len s: a stack budget of len s frames suffices and one
frame fewer is exhausted on a nonempty sequence. -/
theorem claim_C10_fold_termination (f : T → T → T) (z : T) (s : List T) (fuel : Nat) :
    (s.length ≤ fuel →
      foldlFuel f z s fuel = some (foldlT f z s) ∧
        foldrFuel f z s fuel = some (foldrT f z s)) ∧
    (fuel < s.length →
      foldlFuel f z s fuel = none ∧ foldrFuel f z s fuel = none) :=
  ⟨fun h => ⟨foldlFuel_enough f s z fuel h, foldrFuel_enough f z s fuel h⟩,
   fun h => ⟨foldlFuel_exhaust f s z fuel h, foldrFuel_exhaust f z s fuel h⟩⟩

/-- Witness for C10: three frames run a three element fold to completion
and two frames are exhausted. -/
theorem claim_C10_witness :
    foldlFuel (fun a b => a - b) 0 [1, 2, 3] 3 =
        some (foldlT (fun a b => a - b) 0 [1, 2, 3]) ∧
      foldlFuel (fun a b => a - b) 0 [1, 2, 3] 2 = none :=
  ⟨((claim_C10_fold_termination (fun a b => a - b) 0 [1, 2, 3] 3).1 (by decide)).1,
   ((claim_C10_fold_termination (fun a b => a - b) 0 [1, 2, 3] 2).2 (by decide)).1⟩
